import Mathlib

/-!
Verification of `fast_merkle_root` (src/fast_merkle_root.rs) against its
specification.

The Rust function reduces a `Vec<H256>` of leaves to a Merkle root in place:
while more than one entry remains, it duplicates the last entry when the
level length is odd, overwrites the front half of the buffer with the
pairwise compressions `leaves[i*2].hash_with(leaves[i*2+1])`, and truncates
the buffer to half its length (`split_off`).

The digest type `H256` and its two-child compression `hash_with` live in the
crate's `hash` module, which is external to the reduction. Modelled from the
spec: the spec (section 4.2) treats the digest as an opaque fixed-size value
with a zero sentinel and `compress` as an opaque deterministic two-argument
function, so the embedding is parameterised by a type `α`, a function
`compress : α → α → α` and a value `zero : α`.

Vector indexing in Rust panics when out of bounds; the embedding returns
`Option` values, with `none` standing for a panic, so that totality of the
Rust code is a provable statement (`fast_merkle_root … |>.isSome`).
-/

namespace FastMerkle

variable {α : Type}

/-- The inner `while i < leaves.len() / 2` loop of `fast_merkle_root`:
starting at index `i`, overwrite `leaves[i]` with
`leaves[i*2].hash_with(leaves[i*2+1])` and increment `i` until `i` reaches
`leaves.len() / 2`. Out-of-bounds reads (Rust panics) yield `none`. -/
def innerLoop (compress : α → α → α) (i : Nat) (l : List α) : Option (List α) :=
  if i < l.length / 2 then
    match l[i * 2]?, l[i * 2 + 1]? with
    | some a, some b => innerLoop compress (i + 1) (l.set i (compress a b))
    | _, _ => none
  else
    some l
termination_by l.length / 2 - i
decreasing_by
  simp only [List.length_set]
  omega

/-- The odd-length padding step of `fast_merkle_root`: when
`leaves.len() & 1 != 0`, push a copy of `leaves[leaves.len() - 1]`. -/
def padOdd (l : List α) : Option (List α) :=
  if l.length % 2 ≠ 0 then
    (l[l.length - 1]?).map (fun x => l ++ [x])
  else
    some l

/-- One iteration of the outer `while leaves.len() > 1` loop: pad when odd,
run the inner compression loop, then keep the front
`leaves.len() / 2` entries (`split_off(drain_start)` truncates to
`drain_start = leaves.len() / 2`). -/
def merkleRound (compress : α → α → α) (l : List α) : Option (List α) :=
  match padOdd l with
  | none => none
  | some p =>
    match innerLoop compress 0 p with
    | none => none
    | some f => some (f.take (f.length / 2))

/-- `innerLoop` preserves the length of the buffer. -/
theorem innerLoop_length (compress : α → α → α) :
    ∀ k i (l f : List α), l.length / 2 - i = k →
      innerLoop compress i l = some f → f.length = l.length := by
  intro k
  induction k with
  | zero =>
    intro i l f hk h
    unfold innerLoop at h
    rw [if_neg (by omega)] at h
    cases h
    rfl
  | succ k ih =>
    intro i l f hk h
    unfold innerLoop at h
    rw [if_pos (by omega)] at h
    have h2i : i * 2 + 1 < l.length := by omega
    obtain ⟨a, ha⟩ : ∃ a, l[i * 2]? = some a := by
      exact ⟨l[i * 2], List.getElem?_eq_some.mpr ⟨by omega, rfl⟩⟩
    obtain ⟨b, hb⟩ : ∃ b, l[i * 2 + 1]? = some b := by
      exact ⟨l[i * 2 + 1], List.getElem?_eq_some.mpr ⟨h2i, rfl⟩⟩
    rw [ha, hb] at h
    have := ih (i + 1) (l.set i (compress a b)) f (by simp [List.length_set]; omega) h
    simpa [List.length_set] using this

/-- Full characterisation of `innerLoop` from index `i`: it succeeds, keeps
the length, leaves entries below `i` and from `l.length / 2` on unchanged,
and stores `compress l[j*2] l[j*2+1]` at every `j` in `[i, l.length / 2)`. -/
theorem innerLoop_spec (compress : α → α → α) :
    ∀ k i (l : List α), l.length / 2 - i = k →
      ∃ f, innerLoop compress i l = some f ∧ f.length = l.length ∧
        (∀ j, j < i → f[j]? = l[j]?) ∧
        (∀ j, l.length / 2 ≤ j → f[j]? = l[j]?) ∧
        (∀ j a b, i ≤ j → j < l.length / 2 →
          l[j * 2]? = some a → l[j * 2 + 1]? = some b →
          f[j]? = some (compress a b)) := by
  intro k
  induction k with
  | zero =>
    intro i l hk
    refine ⟨l, ?_, rfl, fun _ _ => rfl, fun _ _ => rfl, fun j a b hij hj _ _ => ?_⟩
    · unfold innerLoop
      rw [if_neg (by omega)]
    · omega
  | succ k ih =>
    intro i l hk
    have hi : i < l.length / 2 := by omega
    have h2i : i * 2 + 1 < l.length := by omega
    obtain ⟨a, ha⟩ : ∃ a, l[i * 2]? = some a :=
      ⟨l[i * 2], List.getElem?_eq_some.mpr ⟨by omega, rfl⟩⟩
    obtain ⟨b, hb⟩ : ∃ b, l[i * 2 + 1]? = some b :=
      ⟨l[i * 2 + 1], List.getElem?_eq_some.mpr ⟨h2i, rfl⟩⟩
    set l' := l.set i (compress a b) with hl'
    have hlen' : l'.length = l.length := by simp [hl', List.length_set]
    obtain ⟨f, hf, hflen, hlow, hhigh, hmid⟩ :=
      ih (i + 1) l' (by rw [hlen']; omega)
    refine ⟨f, ?_, by rw [hflen, hlen'], ?_, ?_, ?_⟩
    · unfold innerLoop
      rw [if_pos hi, ha, hb]
      exact hf
    · intro j hj
      rw [hlow j (by omega)]
      exact List.getElem?_set_ne (by omega)
    · intro j hj
      rw [hhigh j (by rw [hlen']; omega)]
      exact List.getElem?_set_ne (by omega)
    · intro j c d hij hj hc hd
      rcases Nat.eq_or_lt_of_le hij with heq | hlt
      · rw [← heq] at hc hd ⊢
        rw [hlow i (by omega), hl', List.getElem?_set_self (by omega)]
        rw [ha] at hc
        rw [hb] at hd
        cases hc
        cases hd
        rfl
      · have hc' : l'[j * 2]? = some c := by
          rw [hl', List.getElem?_set_ne (by omega)]
          exact hc
        have hd' : l'[j * 2 + 1]? = some d := by
          rw [hl', List.getElem?_set_ne (by omega)]
          exact hd
        exact hmid j c d hlt (by rw [hlen']; omega) hc' hd'

/-- Reference reduction, steps 2 and 3 of spec section 4.1: partition the
level into consecutive pairs in original order and replace each pair
`(left, right)` by `compress left right`, preserving pair order. An
unpaired trailing element (absent after the padding step) is dropped,
matching the truncation to `len / 2`. -/
def pairUp (compress : α → α → α) : List α → List α
  | [] => []
  | [_] => []
  | a :: b :: t => compress a b :: pairUp compress t

/-- Two-at-a-time list induction, following the recursion of `pairUp`. -/
theorem twoStepRec {motive : List α → Prop} (h0 : motive [])
    (h1 : ∀ a, motive [a])
    (h2 : ∀ a b t, motive t → motive (a :: b :: t)) : ∀ l, motive l
  | [] => h0
  | [a] => h1 a
  | a :: b :: t => h2 a b t (twoStepRec h0 h1 h2 t)

/-- Pairwise compression halves the level length, rounding down. -/
theorem pairUp_length (compress : α → α → α) :
    ∀ l : List α, (pairUp compress l).length = l.length / 2 := by
  apply twoStepRec
  · simp [pairUp]
  · intro a
    simp [pairUp]
  · intro a b t ih
    simp only [pairUp, List.length_cons, ih]
    omega

/-- Entry `j` of the pairwise compression is `compress l[j*2] l[j*2+1]`. -/
theorem pairUp_getElem? (compress : α → α → α) :
    ∀ (l : List α) (j : Nat),
      (pairUp compress l)[j]? =
        (l[j * 2]?).bind fun a => (l[j * 2 + 1]?).map fun b => compress a b := by
  apply twoStepRec
  · intro j
    simp [pairUp]
  · intro a j
    rcases j with _ | j
    · simp [pairUp]
    · simp only [pairUp]
      rw [List.getElem?_eq_none (l := [a]) (by simp; omega),
        List.getElem?_eq_none (l := ([] : List α)) (by simp)]
      rfl
  · intro a b t ih j
    rcases j with _ | j
    · simp [pairUp]
    · have e1 : (j + 1) * 2 = j * 2 + 1 + 1 := by ring
      have e2 : (j + 1) * 2 + 1 = j * 2 + 1 + 1 + 1 := by ring
      simp only [pairUp, e1, e2, List.getElem?_cons_succ]
      exact ih j

/-- Padding step 1 of spec section 4.1: if the level has an odd number of
elements, append a copy of its last element. -/
def padSpec (l : List α) : List α :=
  if l.length % 2 = 1 then
    match l.getLast? with
    | some x => l ++ [x]
    | none => l
  else l

/-- The padded level has one more element exactly when the level was odd. -/
theorem padSpec_length (l : List α) :
    (padSpec l).length = if l.length % 2 = 1 then l.length + 1 else l.length := by
  unfold padSpec
  by_cases h : l.length % 2 = 1
  · rw [if_pos h, if_pos h, List.getLast?_eq_getElem?]
    obtain ⟨x, hx⟩ : ∃ x, l[l.length - 1]? = some x :=
      ⟨l.get ⟨l.length - 1, by omega⟩, by
        rw [List.getElem?_eq_some]
        exact ⟨by omega, rfl⟩⟩
    rw [hx]
    simp
  · rw [if_neg h, if_neg h]

/-- One full round of the reference reduction: pad to even length, then
compress consecutive pairs. -/
def specStep (compress : α → α → α) (l : List α) : List α :=
  pairUp compress (padSpec l)

/-- Each reference round takes a level of length `n` to one of length
`ceil(n / 2)`. -/
theorem specStep_length (compress : α → α → α) (l : List α) :
    (specStep compress l).length = (l.length + 1) / 2 := by
  unfold specStep
  rw [pairUp_length, padSpec_length]
  by_cases h : l.length % 2 = 1
  · rw [if_pos h]
  · rw [if_neg h]
    omega

/-- The reference outer loop of spec section 4.1: repeat the round until
one digest remains. -/
def specLoop (compress : α → α → α) (l : List α) : List α :=
  if h : 1 < l.length then specLoop compress (specStep compress l) else l
termination_by l.length
decreasing_by
  rw [specStep_length]
  omega

/-- Unfolding `specLoop` when more than one element remains. -/
theorem specLoop_step (compress : α → α → α) (l : List α) (h : 1 < l.length) :
    specLoop compress l = specLoop compress (specStep compress l) := by
  conv_lhs => unfold specLoop
  rw [dif_pos h]

/-- `specLoop` is the identity once at most one element remains. -/
theorem specLoop_fix (compress : α → α → α) (l : List α) (h : ¬ 1 < l.length) :
    specLoop compress l = l := by
  conv_lhs => unfold specLoop
  rw [dif_neg h]

/-- The reference reduction of spec section 4.1, with the spec's stated
degenerate cases: the zero sentinel on no leaves and the leaf itself on a
single leaf. -/
def specReduce (compress : α → α → α) (zero : α) (leaves : List α) : α :=
  if leaves.length = 0 then zero
  else if leaves.length = 1 then leaves.headD zero
  else (specLoop compress leaves).headD zero

/-- The code's padding (`push` of `leaves[leaves.len() - 1]` when the
length is odd) never panics and agrees with the spec's padding step. -/
theorem padOdd_eq (l : List α) : padOdd l = some (padSpec l) := by
  unfold padOdd padSpec
  by_cases h : l.length % 2 = 1
  · rw [if_pos (by omega), if_pos h, List.getLast?_eq_getElem?]
    obtain ⟨x, hx⟩ : ∃ x, l[l.length - 1]? = some x :=
      ⟨l.get ⟨l.length - 1, by omega⟩, by
        rw [List.getElem?_eq_some]
        exact ⟨by omega, rfl⟩⟩
    rw [hx]
    rfl
  · rw [if_neg (by omega), if_neg h]

/-- The code's in-place round — pad, overwrite the front half with the
pairwise compressions, truncate to half — never panics and computes
exactly the spec's round: compression of consecutive pairs of the padded
level. This is the heart of the front-half-overwrite equivalence: every
read `leaves[i*2]`, `leaves[i*2+1]` happens at indices not yet
overwritten. -/
theorem merkleRound_eq_specStep (compress : α → α → α) (l : List α) :
    merkleRound compress l = some (specStep compress l) := by
  unfold merkleRound
  rw [padOdd_eq]
  have hev : (padSpec l).length % 2 = 0 := by
    rw [padSpec_length]
    by_cases h : l.length % 2 = 1
    · rw [if_pos h]
      omega
    · rw [if_neg h]
      omega
  obtain ⟨f, hf, hflen, hlow, hhigh, hmid⟩ :=
    innerLoop_spec compress ((padSpec l).length / 2) 0 (padSpec l) (by omega)
  show (match innerLoop compress 0 (padSpec l) with
    | none => none
    | some f => some (List.take (f.length / 2) f)) = some (specStep compress l)
  rw [hf]
  simp only [Option.some.injEq]
  apply List.ext_getElem?
  intro n
  rw [List.getElem?_take, specStep]
  rw [pairUp_getElem? compress (padSpec l) n]
  by_cases hn : n < f.length / 2
  · rw [if_pos hn]
    have hn2 : n * 2 + 1 < (padSpec l).length := by omega
    obtain ⟨a, ha⟩ : ∃ a, (padSpec l)[n * 2]? = some a :=
      ⟨(padSpec l).get ⟨n * 2, by omega⟩, by
        rw [List.getElem?_eq_some]
        exact ⟨by omega, rfl⟩⟩
    obtain ⟨b, hb⟩ : ∃ b, (padSpec l)[n * 2 + 1]? = some b :=
      ⟨(padSpec l).get ⟨n * 2 + 1, hn2⟩, by
        rw [List.getElem?_eq_some]
        exact ⟨hn2, rfl⟩⟩
    rw [ha, hb, hmid n a b (by omega) (by omega) ha hb]
    rfl
  · rw [if_neg hn]
    have : (padSpec l)[n * 2]? = none :=
      List.getElem?_eq_none (by omega)
    rw [this]
    rfl

/-- The outer `while leaves.len() > 1` loop of `fast_merkle_root`:
repeat the in-place round until at most one entry remains, propagating
any panic. -/
def merkleLoop (compress : α → α → α) (l : List α) : Option (List α) :=
  if h : 1 < l.length then
    match hr : merkleRound compress l with
    | some m => merkleLoop compress m
    | none => none
  else some l
termination_by l.length
decreasing_by
  have hs := merkleRound_eq_specStep compress l
  rw [hr] at hs
  injection hs with hs
  rw [hs, specStep_length]
  omega

/-- Unfolding `merkleLoop` when more than one entry remains: the round
never panics, so the loop continues on the spec round's output. -/
theorem merkleLoop_step (compress : α → α → α) (l : List α) (h : 1 < l.length) :
    merkleLoop compress l = merkleLoop compress (specStep compress l) := by
  conv_lhs => unfold merkleLoop
  rw [dif_pos h]
  have hs := merkleRound_eq_specStep compress l
  split
  · next m hm =>
    rw [hm] at hs
    injection hs with hs
    rw [hs]
  · next hm =>
    rw [hm] at hs
    cases hs

/-- `merkleLoop` halts once at most one entry remains. -/
theorem merkleLoop_base (compress : α → α → α) (l : List α) (h : ¬ 1 < l.length) :
    merkleLoop compress l = some l := by
  conv_lhs => unfold merkleLoop
  rw [dif_neg h]

/-- fast_merkle_root from src/fast_merkle_root.rs: the zero digest on an
empty input, the single leaf itself, and otherwise the in-place
level-by-level reduction. -/
def fast_merkle_root (compress : α → α → α) (zero : α) (leaves : List α) : Option α :=
  if leaves.length = 0 then some zero
  else if leaves.length < 2 then leaves[0]?
  else
    match merkleLoop compress leaves with
    | some l => l[0]?
    | none => none

/-- The code's loop is the spec's loop: equal on every level. -/
theorem merkleLoop_eq_specLoop (compress : α → α → α) :
    ∀ (n : Nat) (l : List α), l.length ≤ n →
      merkleLoop compress l = some (specLoop compress l) := by
  intro n
  induction n with
  | zero =>
    intro l h
    rw [merkleLoop_base compress l (by omega), specLoop_fix compress l (by omega)]
  | succ n ih =>
    intro l h
    by_cases h1 : 1 < l.length
    · rw [merkleLoop_step compress l h1, specLoop_step compress l h1]
      exact ih (specStep compress l) (by rw [specStep_length]; omega)
    · rw [merkleLoop_base compress l h1, specLoop_fix compress l h1]

/-- A nonempty level reduces to exactly one digest. -/
theorem specLoop_length (compress : α → α → α) :
    ∀ (n : Nat) (l : List α), l.length ≤ n → 1 ≤ l.length →
      (specLoop compress l).length = 1 := by
  intro n
  induction n with
  | zero =>
    intro l h h1
    omega
  | succ n ih =>
    intro l h h1
    by_cases h2 : 1 < l.length
    · rw [specLoop_step compress l h2]
      exact ih (specStep compress l) (by rw [specStep_length]; omega)
        (by rw [specStep_length]; omega)
    · rw [specLoop_fix compress l h2]
      omega

/-- `fast_merkle_root` never panics and agrees with the reference
reduction `specReduce` on every input. -/
theorem fast_merkle_root_eq (compress : α → α → α) (zero : α) (l : List α) :
    fast_merkle_root compress zero l = some (specReduce compress zero l) := by
  unfold fast_merkle_root specReduce
  by_cases h0 : l.length = 0
  · rw [if_pos h0, if_pos h0]
  · by_cases h1 : l.length < 2
    · rw [if_neg h0, if_pos h1, if_neg h0, if_pos (show l.length = 1 by omega)]
      obtain ⟨x, rfl⟩ := List.length_eq_one.mp (show l.length = 1 by omega)
      rfl
    · rw [if_neg h0, if_neg h1, if_neg h0, if_neg (show ¬ l.length = 1 by omega)]
      rw [merkleLoop_eq_specLoop compress l.length l (le_refl _)]
      obtain ⟨x, hx⟩ := List.length_eq_one.mp
        (specLoop_length compress l.length l (le_refl _) (by omega))
      rw [hx]
      rfl

/-- The outer loop instrumented with a round counter and a flag recording
whether the odd-length padding branch (`leaves.len() & 1 != 0`) was ever
taken; used to state the scale invariant for `2 ^ k` leaves. -/
def merkleLoopCount (compress : α → α → α) (l : List α) :
    Option (List α × Nat × Bool) :=
  if h : 1 < l.length then
    match hr : merkleRound compress l with
    | some m =>
      match merkleLoopCount compress m with
      | some (r, c, b) => some (r, c + 1, b || decide (l.length % 2 ≠ 0))
      | none => none
    | none => none
  else some (l, 0, false)
termination_by l.length
decreasing_by
  have hs := merkleRound_eq_specStep compress l
  rw [hr] at hs
  injection hs with hs
  rw [hs, specStep_length]
  omega

/-- Unfolding `merkleLoopCount` when more than one entry remains. -/
theorem merkleLoopCount_step (compress : α → α → α) (l : List α)
    (h : 1 < l.length) :
    merkleLoopCount compress l =
      match merkleLoopCount compress (specStep compress l) with
      | some (r, c, b) => some (r, c + 1, b || decide (l.length % 2 ≠ 0))
      | none => none := by
  conv_lhs => unfold merkleLoopCount
  rw [dif_pos h]
  have hs := merkleRound_eq_specStep compress l
  split
  · next m hm =>
    rw [hm] at hs
    injection hs with hs
    rw [hs]
  · next hm =>
    rw [hm] at hs
    cases hs

/-- `merkleLoopCount` halts with zero rounds and an untouched flag once at
most one entry remains. -/
theorem merkleLoopCount_base (compress : α → α → α) (l : List α)
    (h : ¬ 1 < l.length) :
    merkleLoopCount compress l = some (l, 0, false) := by
  conv_lhs => unfold merkleLoopCount
  rw [dif_neg h]

/-- On `2 ^ k` leaves the loop runs exactly `k` rounds, never pads, and
agrees with `merkleLoop`. -/
theorem pow2_loop (compress : α → α → α) :
    ∀ (k : Nat) (l : List α), l.length = 2 ^ k →
      ∃ r, merkleLoopCount compress l = some (r, k, false) ∧
        merkleLoop compress l = some r := by
  intro k
  induction k with
  | zero =>
    intro l h
    refine ⟨l, ?_, ?_⟩
    · rw [merkleLoopCount_base compress l (by simp at h; omega)]
    · rw [merkleLoop_base compress l (by simp at h; omega)]
  | succ k ih =>
    intro l h
    have h2 : 2 ^ (k + 1) = 2 * 2 ^ k := by ring
    have hp : 0 < 2 ^ k := pow_pos (by omega) k
    have hlen : 1 < l.length := by omega
    have hslen : (specStep compress l).length = 2 ^ k := by
      rw [specStep_length]
      omega
    obtain ⟨r, hc, hm⟩ := ih (specStep compress l) hslen
    refine ⟨r, ?_, ?_⟩
    · rw [merkleLoopCount_step compress l hlen, hc]
      have hev : ¬ l.length % 2 ≠ 0 := by omega
      rw [decide_eq_false hev]
      rfl
    · rw [merkleLoop_step compress l hlen, hm]

/-- The empty input returns the zero sentinel. -/
theorem fast_nil (compress : α → α → α) (zero : α) :
    fast_merkle_root compress zero [] = some zero := rfl

/-- A single leaf is returned unchanged. -/
theorem fast_singleton (compress : α → α → α) (zero d : α) :
    fast_merkle_root compress zero [d] = some d := rfl

/-- Two leaves reduce to a single compression. -/
theorem fast_pair (compress : α → α → α) (zero a b : α) :
    fast_merkle_root compress zero [a, b] = some (compress a b) := by
  rw [fast_merkle_root_eq]
  have h1 : specStep compress [a, b] = [compress a b] := by
    simp [specStep, padSpec, pairUp]
  have h2 : specLoop compress [a, b] = [compress a b] := by
    rw [specLoop_step compress [a, b] (by simp), h1,
      specLoop_fix compress [compress a b] (by simp)]
  unfold specReduce
  rw [if_neg (by simp), if_neg (by simp), h2]
  rfl

/-- Three leaves: the unpaired last leaf is compressed with itself, then
the two level-one digests are compressed. -/
theorem fast_triple (compress : α → α → α) (zero a b c : α) :
    fast_merkle_root compress zero [a, b, c] =
      some (compress (compress a b) (compress c c)) := by
  rw [fast_merkle_root_eq]
  have h1 : specStep compress [a, b, c] = [compress a b, compress c c] := by
    simp [specStep, padSpec, pairUp]
  have h2 : specStep compress [compress a b, compress c c] =
      [compress (compress a b) (compress c c)] := by
    simp [specStep, padSpec, pairUp]
  have h3 : specLoop compress [a, b, c] =
      [compress (compress a b) (compress c c)] := by
    rw [specLoop_step compress [a, b, c] (by simp), h1,
      specLoop_step compress [compress a b, compress c c] (by simp), h2,
      specLoop_fix compress [compress (compress a b) (compress c c)] (by simp)]
  unfold specReduce
  rw [if_neg (by simp), if_neg (by simp), h3]
  rfl

/-- C1: for every leaf sequence with at least two elements, the in-place
front-half-overwrite-and-truncate computation of `fast_merkle_root` returns
(without panicking) exactly the reference level-by-level reduction of spec
section 4.1: pad an odd level with a copy of its last element, partition
into consecutive pairs in order, compress each pair preserving order,
repeat until one digest remains. -/
theorem claim_C1 (compress : α → α → α) (zero : α) (leaves : List α)
    (h : 2 ≤ leaves.length) :
    fast_merkle_root compress zero leaves =
      some (specReduce compress zero leaves) :=
  fast_merkle_root_eq compress zero leaves

/-- Witness for C1 at five concrete leaves. -/
theorem claim_C1_witness :
    2 ≤ ([1, 2, 3, 4, 5] : List Nat).length ∧
      fast_merkle_root Nat.add 0 [1, 2, 3, 4, 5] =
        some (specReduce Nat.add 0 [1, 2, 3, 4, 5]) :=
  ⟨by decide, claim_C1 Nat.add 0 [1, 2, 3, 4, 5] (by decide)⟩

/-- C2: `fast_merkle_root` on the empty leaf sequence returns the all-zero
sentinel digest. -/
theorem claim_C2 (compress : α → α → α) (zero : α) :
    fast_merkle_root compress zero ([] : List α) = some zero :=
  fast_nil compress zero

/-- C3: for every digest `d`, `fast_merkle_root [d]` returns `d` itself,
with no compression applied. -/
theorem claim_C3 (compress : α → α → α) (zero d : α) :
    fast_merkle_root compress zero [d] = some d :=
  fast_singleton compress zero d

/-- C4: for every pair of digests, `fast_merkle_root [a, b]` is a single
application of the two-child compression. -/
theorem claim_C4 (compress : α → α → α) (zero a b : α) :
    fast_merkle_root compress zero [a, b] = some (compress a b) :=
  fast_pair compress zero a b

/-- C5: for three digests, the unpaired last leaf is duplicated and hashed
with itself, not carried up unhashed:
`fast_merkle_root [a, b, c] = compress (compress a b) (compress c c)`. -/
theorem claim_C5 (compress : α → α → α) (zero a b c : α) :
    fast_merkle_root compress zero [a, b, c] =
      some (compress (compress a b) (compress c c)) :=
  fast_triple compress zero a b c

/-- C6: `fast_merkle_root` is total — every finite input yields `some`
digest, never the `none` that stands for a panicking index access — and
each round of the reduction loop takes a level of length `n ≥ 2` to one of
length `ceil(n / 2)`, strictly smaller. -/
theorem claim_C6 (compress : α → α → α) (zero : α) (leaves l : List α)
    (h : 2 ≤ l.length) :
    (fast_merkle_root compress zero leaves).isSome = true ∧
      ∃ m, merkleRound compress l = some m ∧
        m.length = (l.length + 1) / 2 ∧ m.length < l.length := by
  refine ⟨?_, specStep compress l, merkleRound_eq_specStep compress l, ?_, ?_⟩
  · rw [fast_merkle_root_eq]
    rfl
  · rw [specStep_length]
  · rw [specStep_length]
    omega

/-- Witness for C6 at concrete inputs. -/
theorem claim_C6_witness :
    2 ≤ ([1, 2, 3] : List Nat).length ∧
      ((fast_merkle_root Nat.add 0 [4, 5]).isSome = true ∧
        ∃ m, merkleRound Nat.add [1, 2, 3] = some m ∧
          m.length = (([1, 2, 3] : List Nat).length + 1) / 2 ∧
          m.length < ([1, 2, 3] : List Nat).length) :=
  ⟨by decide, claim_C6 Nat.add 0 [4, 5] [1, 2, 3] (by decide)⟩

/-- C7: on exactly `2 ^ k` leaves the outer loop performs exactly `k`
rounds and the odd-length padding branch never executes (the instrumented
loop's pad flag stays `false`), and the instrumented loop agrees with the
plain one. -/
theorem claim_C7 (compress : α → α → α) (k : Nat) (l : List α)
    (h : l.length = 2 ^ k) :
    ∃ r, merkleLoopCount compress l = some (r, k, false) ∧
      merkleLoop compress l = some r :=
  pow2_loop compress k l h

/-- Witness for C7 at four concrete leaves (`k = 2`). -/
theorem claim_C7_witness :
    ([1, 2, 3, 4] : List Nat).length = 2 ^ 2 ∧
      ∃ r, merkleLoopCount Nat.add [1, 2, 3, 4] = some (r, 2, false) ∧
        merkleLoop Nat.add [1, 2, 3, 4] = some r :=
  ⟨by decide, claim_C7 Nat.add 2 [1, 2, 3, 4] (by decide)⟩

/-- C8: for distinct digests whose compression is order-sensitive at that
pair, swapping the two leaves changes the root. -/
theorem claim_C8 (compress : α → α → α) (zero : α) (a b : α) (hab : a ≠ b)
    (hc : compress a b ≠ compress b a) :
    fast_merkle_root compress zero [a, b] ≠
      fast_merkle_root compress zero [b, a] := by
  rw [fast_pair, fast_pair]
  intro h
  exact hc (Option.some.inj h)

/-- Witness for C8 with the order-sensitive compression
`compress a b = a * 100 + b`. -/
theorem claim_C8_witness :
    (1 : Nat) ≠ 2 ∧
      (fun (a b : Nat) => a * 100 + b) 1 2 ≠ (fun (a b : Nat) => a * 100 + b) 2 1 ∧
      fast_merkle_root (fun (a b : Nat) => a * 100 + b) 0 [1, 2] ≠
        fast_merkle_root (fun (a b : Nat) => a * 100 + b) 0 [2, 1] :=
  ⟨by decide, by decide,
    claim_C8 (fun (a b : Nat) => a * 100 + b) 0 1 2 (by decide) (by decide)⟩

/-- C9: the empty sequence and the singleton holding the zero sentinel
produce the same root, the zero sentinel itself, so a zero root does not
distinguish the two cases at the public interface. -/
theorem claim_C9 (compress : α → α → α) (zero : α) :
    fast_merkle_root compress zero ([] : List α) =
        fast_merkle_root compress zero [zero] ∧
      fast_merkle_root compress zero [zero] = some zero :=
  ⟨by rw [fast_nil, fast_singleton], fast_singleton compress zero zero⟩

/-- C10: for a leaf sequence of odd length at least 3, explicitly appending
a copy of its last element leaves the root unchanged. -/
theorem claim_C10 (compress : α → α → α) (zero : α) (leaves : List α) (x : α)
    (h1 : leaves.length % 2 = 1) (h2 : 3 ≤ leaves.length)
    (hx : leaves[leaves.length - 1]? = some x) :
    fast_merkle_root compress zero (leaves ++ [x]) =
      fast_merkle_root compress zero leaves := by
  have hpad1 : padSpec leaves = leaves ++ [x] := by
    unfold padSpec
    rw [if_pos h1, List.getLast?_eq_getElem?, hx]
  have hpad2 : padSpec (leaves ++ [x]) = leaves ++ [x] := by
    unfold padSpec
    rw [if_neg (by simp only [List.length_append, List.length_singleton]; omega)]
  rw [fast_merkle_root_eq, fast_merkle_root_eq]
  have hloops : specLoop compress (leaves ++ [x]) = specLoop compress leaves := by
    rw [specLoop_step compress (leaves ++ [x])
        (by simp only [List.length_append, List.length_singleton]; omega),
      specLoop_step compress leaves (by omega)]
    unfold specStep
    rw [hpad1, hpad2]
  unfold specReduce
  rw [if_neg (show ¬ (leaves ++ [x]).length = 0 by
      simp only [List.length_append, List.length_singleton]; omega),
    if_neg (show ¬ (leaves ++ [x]).length = 1 by
      simp only [List.length_append, List.length_singleton]; omega),
    if_neg (show ¬ leaves.length = 0 by omega),
    if_neg (show ¬ leaves.length = 1 by omega),
    hloops]

/-- Witness for C10 at three concrete leaves. -/
theorem claim_C10_witness :
    ([1, 2, 3] : List Nat).length % 2 = 1 ∧
      3 ≤ ([1, 2, 3] : List Nat).length ∧
      ([1, 2, 3] : List Nat)[([1, 2, 3] : List Nat).length - 1]? = some 3 ∧
      fast_merkle_root Nat.add 0 ([1, 2, 3] ++ [3]) =
        fast_merkle_root Nat.add 0 [1, 2, 3] :=
  ⟨by decide, by decide, by decide,
    claim_C10 Nat.add 0 [1, 2, 3] 3 (by decide) (by decide) (by decide)⟩

end FastMerkle
